import Mathlib

/-!
Shallow embedding of the recommendation endpoint of the Yt-Movie backend
(`get_recommended_movies` in `main.py`, lines 218-286), together with the
helper computations it performs: category scoring, stable descending sort,
proportional seat allocation with remainder absorption, seen-id exclusion,
per-category collection, and final shuffle/truncation.

Interaction records are the dictionaries stored under `likedMovies` /
`watchedMovies`; only the `videoId` and `category` fields take part in the
algorithm.  Catalog items are the movie documents of a category collection;
only their `videoId` takes part.  `random.shuffle` is modelled by a
deterministic permutation driven by an injected stream of naturals (the rng
state), threaded through the calls in program order.
-/

/-- An interaction record: a liked or watched movie entry of a user. -/
structure HistItem where
  videoId : String
  category : String
deriving DecidableEq, Repr

/-- A catalog item (movie document) as far as the algorithm inspects it. -/
structure Movie where
  videoId : String
deriving DecidableEq, Repr

/-- Round-half-to-even (Python `round`) of the nonnegative rational
`num / den`, as used in `round((score / total_score) * total_recommendations)`. -/
def rnd (num den : Nat) : Nat :=
  if 2 * (num % den) < den then num / den
  else if den < 2 * (num % den) then num / den + 1
  else if (num / den) % 2 = 0 then num / den else num / den + 1

/-- One `category_score[c] = category_score.get(c, 0) + k` update of the
insertion-ordered dict, modelled on an association list. -/
def bump (m : List (String × Nat)) (c : String) (k : Nat) : List (String × Nat) :=
  match m with
  | [] => [(c, k)]
  | (c', v) :: rest => if c' = c then (c', v + k) :: rest else (c', v) :: bump rest c k

/-- Dict lookup on the association list. -/
def lookupCS (m : List (String × Nat)) (c : String) : Option Nat :=
  match m with
  | [] => none
  | (c', v) :: rest => if c' = c then some v else lookupCS rest c

/-- The `category_score` dict: +1 per watched record, then +2 per liked record
(`main.py` lines 235-239), in the iteration order of the source. -/
def categoryScore (liked watched : List HistItem) : List (String × Nat) :=
  let m1 := watched.foldl (fun m r => bump m r.category 1) []
  liked.foldl (fun m r => bump m r.category 2) m1

/-- Insert into a descending-by-score list, after all entries of score ≥ its
own: the placement a stable descending sort gives. -/
def insertDesc (x : String × Nat) : List (String × Nat) → List (String × Nat)
  | [] => [x]
  | y :: ys => if x.2 ≤ y.2 then y :: insertDesc x ys else x :: y :: ys

/-- Stable sort by score descending, modelling
`sorted(category_score.items(), key=lambda x: x[1], reverse=True)`. -/
def sortDesc (l : List (String × Nat)) : List (String × Nat) :=
  l.foldl (fun acc x => insertDesc x acc) []

/-- The `top_categories = sorted_categories[:3]` slice (`main.py` line 243). -/
def topCategories (liked watched : List HistItem) : List (String × Nat) :=
  (sortDesc (categoryScore liked watched)).take 3

/-- The `total_score = sum(score for _, score in top_categories) or 1` value. -/
def totalScore (liked watched : List HistItem) : Nat :=
  let t := ((topCategories liked watched).map Prod.snd).sum
  if t = 0 then 1 else t

/-- The seen set: the videoIds of all liked and watched records, as a list;
only membership is ever used. -/
def seenIds (liked watched : List HistItem) : List String :=
  (liked ++ watched).map HistItem.videoId

/-- The proportional-allocation loop (`main.py` lines 253-261): every
category but the last gets `round(score / total_score * 8)`, the last gets
whatever remains of the running counter. -/
def allocGo (t : Nat) (remaining : Int) : List (String × Nat) → List (String × Int)
  | [] => []
  | [(c, _)] => [(c, remaining)]
  | (c, s) :: p :: rest =>
      let a : Int := (rnd (8 * s) t : Nat)
      (c, a) :: allocGo t (remaining - a) (p :: rest)

/-- The `allocations` dict of the endpoint. -/
def allocations (liked watched : List HistItem) : List (String × Int) :=
  allocGo (totalScore liked watched) 8 (topCategories liked watched)

/-- The `random.shuffle` call modelled with an injected stream of naturals: each step
consumes one natural to pick the next element (any permutation is reachable,
and the result is a function of list and stream alone). Returns the permuted
list and the unconsumed stream. -/
def shuf (seeds : List Nat) (l : List α) : List α × List Nat :=
  match seeds, l with
  | seeds, [] => ([], seeds)
  | [], x :: xs => (x :: xs, [])
  | s :: rest, x :: xs =>
      let i := s % (x :: xs).length
      let prev := shuf rest ((x :: xs).eraseIdx i)
      ((x :: xs).get ⟨i, Nat.mod_lt _ (Nat.succ_pos _)⟩ :: prev.1, prev.2)

/-- The per-category collection loop (`main.py` lines 269-276): walk the
shuffled docs, appending unseen movies and stopping as soon as the running
count reaches the category's limit. -/
def pickLoop (seen : List String) (limit : Int) : Int → List Movie → List Movie
  | _, [] => []
  | count, m :: ms =>
      if m.videoId ∈ seen then
        if limit ≤ count then [] else pickLoop seen limit count ms
      else
        m :: (if limit ≤ count + 1 then [] else pickLoop seen limit (count + 1) ms)

/-- The `for cat, limit in allocations.items()` loop (`main.py` lines
264-276): skip non-positive limits, shuffle the category's catalog, collect
up to `limit` unseen movies, and move to the next category, threading the
rng stream. -/
def fetchLoop (seen : List String) (catalog : String → List Movie) :
    List (String × Int) → List Nat → List Movie × List Nat
  | [], seeds => ([], seeds)
  | (cat, limit) :: rest, seeds =>
      if limit ≤ 0 then fetchLoop seen catalog rest seeds
      else
        let docs := shuf seeds (catalog cat)
        let picked := pickLoop seen limit 0 docs.1
        let more := fetchLoop seen catalog rest docs.2
        (picked ++ more.1, more.2)

/-- The JSON response of `GET /user/{user_id}/recommended`: either the
no-history shape (`recommendations: []` plus a message and no other payload
keys) or the full shape with `based_on`, `allocation`, `count` and
`recommendations`. -/
inductive Response where
  | noHistory (message : String)
  | ok (based_on : List String) (allocation : List (String × Int)) (count : Nat)
      (recommendations : List Movie)
deriving DecidableEq, Repr

/-- The `recommendations` field of the response (empty in the no-history shape). -/
def Response.recommendations : Response → List Movie
  | .noHistory _ => []
  | .ok _ _ _ r => r

/-- The `allocation` field of the response (absent, i.e. empty, in the
no-history shape). -/
def Response.allocation : Response → List (String × Int)
  | .noHistory _ => []
  | .ok _ a _ _ => a

/-- The `based_on` field of the response (absent, i.e. empty, in the
no-history shape). -/
def Response.basedOn : Response → List String
  | .noHistory _ => []
  | .ok b _ _ _ => b

/-- The endpoint `get_recommended_movies` (`main.py` lines 218-286), as a function of the
user's liked and watched histories, the catalog supplier, and the rng
stream. -/
def getRecommendedMovies (liked watched : List HistItem)
    (catalog : String → List Movie) (seeds : List Nat) : Response :=
  if liked = [] ∧ watched = [] then
    Response.noHistory "No history found to generate recommendations."
  else
    let top := topCategories liked watched
    let allocs := allocations liked watched
    let seen := seenIds liked watched
    let fetched := fetchLoop seen catalog allocs seeds
    let shuffled := shuf fetched.2 fetched.1
    Response.ok (top.map Prod.fst) allocs shuffled.1.length (shuffled.1.take 8)

/-- Number of records of a history list falling in category `c`. -/
def countCat (l : List HistItem) (c : String) : Nat :=
  (l.filter (fun r => r.category = c)).length

/-- The distinct categories appearing in the history (watched then liked,
deduplicated). -/
def distinctCategories (liked watched : List HistItem) : List String :=
  (watched.map HistItem.category ++ liked.map HistItem.category).dedup

/-! ### Rounding bounds -/

/-- Round-half-to-even of `(d*q + r)/d` with `r < d` overshoots the true
value by at most one half: `2 d R ≤ 2 (d q + r) + d`. -/
theorem rnd_le_of (d q r R : Nat) (hr : r < d)
    (hR : R = if 2 * r < d then q
          else if d < 2 * r then q + 1
          else if q % 2 = 0 then q else q + 1) :
    2 * (d * R) ≤ 2 * (d * q + r) + d := by
  subst hR
  split
  · generalize d * q = m
    omega
  · split
    · have e1 : d * (q + 1) = d * q + d := by ring
      rw [e1]
      generalize d * q = m
      omega
    · split
      · generalize d * q = m
        omega
      · have e1 : d * (q + 1) = d * q + d := by ring
        rw [e1]
        generalize hm : d * q = m
        omega

/-- The overshoot bound instantiated at `rnd`: `2 d (rnd n d) ≤ 2 n + d`. -/
theorem rnd_bound (n d : Nat) (hd : 0 < d) : 2 * (d * rnd n d) ≤ 2 * n + d := by
  have key : d * (n / d) + n % d = n := Nat.div_add_mod n d
  have h := rnd_le_of d (n / d) (n % d) (rnd n d) (Nat.mod_lt _ hd) (by rw [rnd])
  rw [key] at h
  exact h

/-! ### Allocation lemmas -/

/-- The allocation loop telescopes: on a non-empty list the produced seat
counts sum to the initial remaining counter (the remainder-absorption rule). -/
theorem allocGo_sum (t : Nat) (top : List (String × Nat)) :
    ∀ rem : Int, top ≠ [] → (((allocGo t rem top).map Prod.snd).sum = rem) := by
  induction top with
  | nil => intro rem h; exact absurd rfl h
  | cons p rest ih =>
    intro rem _
    cases rest with
    | nil =>
      obtain ⟨c, s⟩ := p
      simp [allocGo]
    | cons p2 rest2 =>
      obtain ⟨c, s⟩ := p
      simp only [allocGo, List.map_cons, List.sum_cons]
      rw [ih _ (by simp)]
      ring

/-! ### Stable descending sort lemmas -/

/-- Function `insertDesc` produces a permutation of consing. -/
theorem insertDesc_perm (x : String × Nat) (l : List (String × Nat)) :
    (insertDesc x l).Perm (x :: l) := by
  induction l with
  | nil => simp [insertDesc]
  | cons y ys ih =>
    rw [insertDesc]
    split
    · exact (ih.cons y).trans (List.Perm.swap x y ys)
    · exact List.Perm.refl _

/-- Function `insertDesc` preserves the descending-by-score ordering. -/
theorem insertDesc_sorted (x : String × Nat) (l : List (String × Nat))
    (h : l.Pairwise (fun a b => b.2 ≤ a.2)) :
    (insertDesc x l).Pairwise (fun a b => b.2 ≤ a.2) := by
  induction l with
  | nil => simp [insertDesc]
  | cons y ys ih =>
    rw [List.pairwise_cons] at h
    rw [insertDesc]
    split
    · rw [List.pairwise_cons]
      refine ⟨?_, ih h.2⟩
      intro b hb
      have hb' : b ∈ x :: ys := (insertDesc_perm x ys).mem_iff.mp hb
      rcases List.mem_cons.mp hb' with hbx | hbys
      · subst hbx; assumption
      · exact h.1 b hbys
    · rw [List.pairwise_cons]
      refine ⟨?_, List.pairwise_cons.mpr h⟩
      intro b hb
      rcases List.mem_cons.mp hb with hby | hbys
      · subst hby; omega
      · have := h.1 b hbys
        omega

/-- Folding `insertDesc` permutes the input (auxiliary form). -/
theorem sortDescAux_perm (l : List (String × Nat)) :
    ∀ acc, (l.foldl (fun a x => insertDesc x a) acc).Perm (l ++ acc) := by
  induction l with
  | nil => intro acc; simp
  | cons x xs ih =>
    intro acc
    simp only [List.foldl_cons, List.cons_append]
    have h1 := ih (insertDesc x acc)
    have h2 : (xs ++ insertDesc x acc).Perm (xs ++ (x :: acc)) :=
      List.Perm.append_left xs (insertDesc_perm x acc)
    have h3 : (xs ++ (x :: acc)).Perm (x :: (xs ++ acc)) := List.perm_middle
    exact (h1.trans h2).trans h3

/-- Function `sortDesc` is a permutation of its input. -/
theorem sortDesc_perm (l : List (String × Nat)) : (sortDesc l).Perm l := by
  have := sortDescAux_perm l []
  simpa [sortDesc] using this

/-- Folding `insertDesc` preserves descending sortedness (auxiliary form). -/
theorem sortDescAux_sorted (l : List (String × Nat)) :
    ∀ acc, acc.Pairwise (fun a b => b.2 ≤ a.2) →
      (l.foldl (fun a x => insertDesc x a) acc).Pairwise (fun a b => b.2 ≤ a.2) := by
  induction l with
  | nil => intro acc h; simpa using h
  | cons x xs ih =>
    intro acc h
    exact ih _ (insertDesc_sorted x acc h)

/-- Function `sortDesc` sorts by score, descending. -/
theorem sortDesc_sorted (l : List (String × Nat)) :
    (sortDesc l).Pairwise (fun a b => b.2 ≤ a.2) :=
  sortDescAux_sorted l [] (by simp)

/-! ### Shuffle lemmas -/

/-- Picking out the `i`-th element is a permutation. -/
theorem cons_eraseIdx_perm (l : List α) :
    ∀ (i : Nat) (h : i < l.length), l.Perm (l.get ⟨i, h⟩ :: l.eraseIdx i) := by
  induction l with
  | nil => intro i h; simp at h
  | cons x xs ih =>
    intro i h
    cases i with
    | zero => simp
    | succ n =>
      have hn : n < xs.length := by simpa using h
      have h1 : xs.Perm (xs.get ⟨n, hn⟩ :: xs.eraseIdx n) := ih n hn
      have h2 : (x :: xs).Perm (x :: xs.get ⟨n, hn⟩ :: xs.eraseIdx n) := h1.cons x
      exact h2.trans (List.Perm.swap _ _ _)

/-- The modelled `random.shuffle` returns a permutation of its input. -/
theorem shuf_perm (seeds : List Nat) : ∀ l : List α, (shuf seeds l).1.Perm l := by
  induction seeds with
  | nil => intro l; cases l <;> simp [shuf]
  | cons s rest ih =>
    intro l
    cases l with
    | nil => simp [shuf]
    | cons x xs =>
      rw [shuf]
      have hlt : s % (x :: xs).length < (x :: xs).length :=
        Nat.mod_lt _ (Nat.succ_pos _)
      have h1 := ih ((x :: xs).eraseIdx (s % (x :: xs).length))
      have h2 := cons_eraseIdx_perm (x :: xs) (s % (x :: xs).length) hlt
      exact (h1.cons _).trans h2.symm

/-- Shuffling preserves length. -/
theorem shuf_length (seeds : List Nat) (l : List α) :
    (shuf seeds l).1.length = l.length :=
  (shuf_perm seeds l).length_eq

/-! ### Per-category collection lemmas -/

/-- The collection loop is "take (limit - count) of the unseen items", in
the order scanned. -/
theorem pickLoop_eq (seen : List String) (limit : Int) :
    ∀ (docs : List Movie) (count : Int), count < limit →
      pickLoop seen limit count docs
        = (docs.filter (fun m => !decide (m.videoId ∈ seen))).take (limit - count).toNat := by
  intro docs
  induction docs with
  | nil => intro count _; simp [pickLoop]
  | cons m ms ih =>
    intro count hc
    rw [pickLoop]
    by_cases h : m.videoId ∈ seen
    · rw [if_pos h, if_neg (by omega), ih count hc]
      simp [List.filter_cons, h]
    · rw [if_neg h]
      by_cases h2 : limit ≤ count + 1
      · rw [if_pos h2]
        have he : (limit - count).toNat = 1 := by omega
        simp [List.filter_cons, h, he]
      · rw [if_neg h2, ih (count + 1) (by omega)]
        have he : (limit - count).toNat = (limit - (count + 1)).toNat + 1 := by omega
        simp [List.filter_cons, h, he]

/-- Everything the collection loop emits is unseen. -/
theorem pickLoop_mem (seen : List String) (limit : Int) :
    ∀ (docs : List Movie) (count : Int) (m : Movie),
      m ∈ pickLoop seen limit count docs → m.videoId ∉ seen := by
  intro docs
  induction docs with
  | nil => intro count m hm; simp [pickLoop] at hm
  | cons d ds ih =>
    intro count m hm
    rw [pickLoop] at hm
    by_cases h : d.videoId ∈ seen
    · rw [if_pos h] at hm
      split at hm
      · simp at hm
      · exact ih count m hm
    · rw [if_neg h] at hm
      rcases List.mem_cons.mp hm with hmd | hm2
      · subst hmd; exact h
      · split at hm2
        · simp at hm2
        · exact ih (count + 1) m hm2

/-! ### Fetch loop lemmas -/

/-- The number of recommendations collected before the final shuffle: each
category with a positive seat count contributes the minimum of its seat
count and its number of unseen catalog items — a shortfall is never
back-filled by another category. -/
theorem fetchLoop_length (seen : List String) (catalog : String → List Movie) :
    ∀ (allocs : List (String × Int)) (seeds : List Nat),
      (fetchLoop seen catalog allocs seeds).1.length
        = (allocs.map (fun p =>
            if 0 < p.2 then
              min p.2.toNat (((catalog p.1).filter (fun m => !decide (m.videoId ∈ seen))).length)
            else 0)).sum := by
  intro allocs
  induction allocs with
  | nil => intro seeds; simp [fetchLoop]
  | cons p rest ih =>
    intro seeds
    obtain ⟨cat, limit⟩ := p
    rw [fetchLoop]
    by_cases h : limit ≤ 0
    · rw [if_pos h]
      rw [ih]
      simp [if_neg (by omega : ¬ (0:Int) < limit)]
    · rw [if_neg h]
      simp only [List.length_append, List.map_cons, List.sum_cons]
      rw [ih]
      congr 1
      rw [if_pos (by omega : (0:Int) < limit)]
      rw [pickLoop_eq seen limit _ 0 (by omega)]
      rw [List.length_take]
      have hperm : ((shuf seeds (catalog cat)).1.filter
            (fun m => !decide (m.videoId ∈ seen))).Perm
          ((catalog cat).filter (fun m => !decide (m.videoId ∈ seen))) :=
        (shuf_perm seeds (catalog cat)).filter _
      rw [hperm.length_eq]
      norm_num

/-- Everything the fetch loop collects is unseen. -/
theorem fetchLoop_mem (seen : List String) (catalog : String → List Movie) :
    ∀ (allocs : List (String × Int)) (seeds : List Nat) (m : Movie),
      m ∈ (fetchLoop seen catalog allocs seeds).1 → m.videoId ∉ seen := by
  intro allocs
  induction allocs with
  | nil => intro seeds m hm; simp [fetchLoop] at hm
  | cons p rest ih =>
    intro seeds m hm
    obtain ⟨cat, limit⟩ := p
    rw [fetchLoop] at hm
    by_cases h : limit ≤ 0
    · rw [if_pos h] at hm
      exact ih seeds m hm
    · rw [if_neg h] at hm
      rcases List.mem_append.mp hm with h1 | h2
      · exact pickLoop_mem seen limit _ 0 m h1
      · exact ih _ m h2

/-! ### Category-score dict lemmas -/

/-- Effect of one `bump` on a lookup. -/
theorem lookupCS_bump (m : List (String × Nat)) (c0 : String) (k : Nat) (c : String) :
    lookupCS (bump m c0 k) c
      = if c0 = c then some ((lookupCS m c).getD 0 + k) else lookupCS m c := by
  induction m with
  | nil => by_cases h : c0 = c <;> simp [bump, lookupCS, h]
  | cons p rest ih =>
    obtain ⟨c', v⟩ := p
    rw [bump]
    by_cases h1 : c' = c0
    · subst h1
      by_cases h2 : c' = c
      · subst h2; simp [lookupCS]
      · simp [lookupCS, h2]
    · rw [if_neg h1]
      by_cases h2 : c' = c
      · subst h2
        have hc : ¬ c0 = c' := fun he => h1 he.symm
        simp [lookupCS, hc]
      · simp [lookupCS, h2, ih]

/-- Folding `bump` with a fixed weight `k` over a record list adds
`k * (number of records in the category)` to each lookup. -/
theorem lookupCS_fold (k : Nat) (rs : List HistItem) :
    ∀ (m : List (String × Nat)) (c : String),
      lookupCS (rs.foldl (fun m r => bump m r.category k) m) c
        = if countCat rs c = 0 then lookupCS m c
          else some ((lookupCS m c).getD 0 + k * countCat rs c) := by
  induction rs with
  | nil => intro m c; simp [countCat]
  | cons r rs ih =>
    intro m c
    have hcc : countCat (r :: rs) c
        = (if r.category = c then 1 else 0) + countCat rs c := by
      by_cases h : r.category = c <;> (simp [countCat, List.filter_cons, h]; try omega)
    simp only [List.foldl_cons]
    rw [ih (bump m r.category k) c, lookupCS_bump]
    by_cases h1 : r.category = c
    · by_cases h2 : countCat rs c = 0
      · simp [h2, hcc, h1]
      · simp [h2, hcc, h1]
        try ring
    · simp [hcc, h1]

/-- The category keys of the dict, in insertion order. -/
def keysCS (m : List (String × Nat)) : List String := m.map Prod.fst

/-- Function `bump` appends the key exactly when it is new. -/
theorem keysCS_bump (m : List (String × Nat)) (c : String) (k : Nat) :
    keysCS (bump m c k) = if c ∈ keysCS m then keysCS m else keysCS m ++ [c] := by
  induction m with
  | nil => simp [bump, keysCS]
  | cons p rest ih =>
    obtain ⟨c', v⟩ := p
    simp only [keysCS] at ih ⊢
    rw [bump]
    by_cases h1 : c' = c
    · subst h1
      simp
    · have h1' : ¬ c = c' := fun he => h1 he.symm
      rw [if_neg h1]
      simp only [List.map_cons, List.mem_cons]
      by_cases h3 : c ∈ List.map Prod.fst rest
      · rw [ih, if_pos h3, if_pos (Or.inr h3)]
      · rw [ih, if_neg h3, if_neg (by rintro (he | hm); exacts [h1' he, h3 hm])]
        simp

/-- Function `bump` keeps the keys duplicate-free. -/
theorem nodup_keysCS_bump (m : List (String × Nat)) (c : String) (k : Nat)
    (h : (keysCS m).Nodup) : (keysCS (bump m c k)).Nodup := by
  rw [keysCS_bump]
  split
  · exact h
  · rw [List.nodup_append]
    refine ⟨h, List.nodup_singleton c, ?_⟩
    intro a ha hb
    simp at hb
    subst hb
    next hc => exact hc ha

/-- Folding `bump` keeps the keys duplicate-free. -/
theorem nodup_keysCS_fold (k : Nat) (rs : List HistItem) :
    ∀ m : List (String × Nat), (keysCS m).Nodup →
      (keysCS (rs.foldl (fun m r => bump m r.category k) m)).Nodup := by
  induction rs with
  | nil => intro m h; simpa using h
  | cons r rs ih =>
    intro m h
    exact ih _ (nodup_keysCS_bump m r.category k h)

/-- The category-score dict has duplicate-free keys. -/
theorem categoryScore_nodup (liked watched : List HistItem) :
    (keysCS (categoryScore liked watched)).Nodup := by
  rw [categoryScore]
  exact nodup_keysCS_fold 2 liked _ (nodup_keysCS_fold 1 watched [] (by simp [keysCS]))

/-- A lookup misses exactly when the key is absent. -/
theorem lookupCS_eq_none_iff (m : List (String × Nat)) (c : String) :
    lookupCS m c = none ↔ c ∉ keysCS m := by
  induction m with
  | nil => simp [lookupCS, keysCS]
  | cons p rest ih =>
    obtain ⟨c', v⟩ := p
    rw [lookupCS]
    by_cases h : c' = c
    · subst h; simp [keysCS]
    · rw [if_neg h, ih]
      simp only [keysCS, List.map_cons, List.mem_cons]
      constructor
      · intro hn hor
        rcases hor with he | hm
        · exact h he.symm
        · exact hn hm
      · intro hn hm
        exact hn (Or.inr hm)

/-- The fully characterised category-score lookup (`main.py` lines 234-239):
watched records weigh 1, liked records weigh 2, and a category is present
exactly when some record mentions it. -/
theorem categoryScore_lookup (liked watched : List HistItem) (c : String) :
    lookupCS (categoryScore liked watched) c
      = if countCat watched c + 2 * countCat liked c = 0 then none
        else some (countCat watched c + 2 * countCat liked c) := by
  rw [categoryScore]
  rw [lookupCS_fold 2 liked _ c, lookupCS_fold 1 watched [] c]
  by_cases h1 : countCat liked c = 0
  · by_cases h2 : countCat watched c = 0
    · simp [h1, h2, lookupCS]
    · simp [h1, h2, lookupCS]
      try omega
  · by_cases h2 : countCat watched c = 0
    · simp [h1, h2, lookupCS]
      try omega
    · simp [h1, h2, lookupCS]
      try omega

/-! ### Distinct categories -/

/-- A category has a positive record count exactly when some record mentions it. -/
theorem countCat_pos_iff (rs : List HistItem) (c : String) :
    countCat rs c ≠ 0 ↔ c ∈ rs.map HistItem.category := by
  constructor
  · intro h
    have hpos : 0 < (rs.filter (fun r => r.category = c)).length := Nat.pos_of_ne_zero h
    obtain ⟨r, hr⟩ := List.length_pos_iff_exists_mem.mp hpos
    obtain ⟨hr1, hr2⟩ := List.mem_filter.mp hr
    exact List.mem_map.mpr ⟨r, hr1, by simpa using hr2⟩
  · intro h
    obtain ⟨r, hr, he⟩ := List.mem_map.mp h
    have hmem : r ∈ rs.filter (fun r => r.category = c) :=
      List.mem_filter.mpr ⟨hr, by simp [he]⟩
    have := List.length_pos_iff_exists_mem.mpr ⟨r, hmem⟩
    rw [countCat]
    omega

/-- The keys of the score dict are the categories of the history. -/
theorem mem_keysCS_categoryScore (l w : List HistItem) (c : String) :
    c ∈ keysCS (categoryScore l w)
      ↔ (c ∈ w.map HistItem.category ∨ c ∈ l.map HistItem.category) := by
  have h1 := lookupCS_eq_none_iff (categoryScore l w) c
  have h2 := categoryScore_lookup l w c
  by_cases h : countCat w c + 2 * countCat l c = 0
  · rw [if_pos h] at h2
    have hnk : c ∉ keysCS (categoryScore l w) := h1.mp h2
    have hw : c ∉ w.map HistItem.category := fun hm =>
      (countCat_pos_iff w c).mpr hm (by omega)
    have hl : c ∉ l.map HistItem.category := fun hm =>
      (countCat_pos_iff l c).mpr hm (by omega)
    simp [hnk, hw, hl]
  · rw [if_neg h] at h2
    have hk : c ∈ keysCS (categoryScore l w) := by
      by_contra hn
      rw [h1.mpr hn] at h2
      exact Option.noConfusion h2
    have : countCat w c ≠ 0 ∨ countCat l c ≠ 0 := by omega
    rcases this with h' | h'
    · exact iff_of_true hk (Or.inl ((countCat_pos_iff w c).mp h'))
    · exact iff_of_true hk (Or.inr ((countCat_pos_iff l c).mp h'))

/-- The score dict has one entry per distinct category of the history. -/
theorem categoryScore_length (l w : List HistItem) :
    (categoryScore l w).length = (distinctCategories l w).length := by
  have hn1 : (keysCS (categoryScore l w)).Nodup := categoryScore_nodup l w
  have hn2 : (distinctCategories l w).Nodup := List.nodup_dedup _
  have hmem : ∀ c, c ∈ keysCS (categoryScore l w) ↔ c ∈ distinctCategories l w := by
    intro c
    rw [mem_keysCS_categoryScore, distinctCategories, List.mem_dedup, List.mem_append]
  have hperm := (List.perm_ext_iff_of_nodup hn1 hn2).mpr hmem
  have hlen := hperm.length_eq
  simpa [keysCS] using hlen

/-! ### Top-category facts -/

/-- The backing list of `based_on` has length `min 3 (number of distinct categories)`. -/
theorem topCategories_length (l w : List HistItem) :
    (topCategories l w).length = min 3 (distinctCategories l w).length := by
  rw [topCategories, List.length_take, (sortDesc_perm _).length_eq, categoryScore_length]

/-- The top categories are listed in non-increasing score order. -/
theorem topCategories_sorted (l w : List HistItem) :
    (topCategories l w).Pairwise (fun a b => b.2 ≤ a.2) :=
  List.Pairwise.sublist (List.take_sublist _ _) (sortDesc_sorted _)

/-- Function `bump` keeps every stored score at least 1. -/
theorem values_pos_bump (m : List (String × Nat)) (c : String) (k : Nat)
    (hk : 1 ≤ k) (h : ∀ p ∈ m, 1 ≤ p.2) : ∀ p ∈ bump m c k, 1 ≤ p.2 := by
  induction m with
  | nil =>
    intro p hp
    simp [bump] at hp
    subst hp
    exact hk
  | cons q rest ih =>
    obtain ⟨c', v⟩ := q
    intro p hp
    rw [bump] at hp
    by_cases h1 : c' = c
    · rw [if_pos h1] at hp
      rcases List.mem_cons.mp hp with he | hm
      · subst he
        have := h (c', v) (by simp)
        simp at this ⊢
        omega
      · exact h p (List.mem_cons_of_mem _ hm)
    · rw [if_neg h1] at hp
      rcases List.mem_cons.mp hp with he | hm
      · subst he
        exact h (c', v) (by simp)
      · exact ih (fun q hq => h q (List.mem_cons_of_mem _ hq)) p hm

/-- Folding `bump` keeps every stored score at least 1. -/
theorem values_pos_fold (k : Nat) (hk : 1 ≤ k) (rs : List HistItem) :
    ∀ m : List (String × Nat), (∀ p ∈ m, 1 ≤ p.2) →
      ∀ p ∈ rs.foldl (fun m r => bump m r.category k) m, 1 ≤ p.2 := by
  induction rs with
  | nil => intro m h; simpa using h
  | cons r rs ih =>
    intro m h
    exact ih _ (values_pos_bump m r.category k hk h)

/-- Every category score is at least 1. -/
theorem categoryScore_values_pos (l w : List HistItem) :
    ∀ p ∈ categoryScore l w, 1 ≤ p.2 := by
  rw [categoryScore]
  exact values_pos_fold 2 (by omega) l _
    (values_pos_fold 1 (by omega) w [] (by simp))

/-- Every top-category score is at least 1. -/
theorem topCategories_values_pos (l w : List HistItem) :
    ∀ p ∈ topCategories l w, 1 ≤ p.2 := by
  intro p hp
  have h1 : p ∈ sortDesc (categoryScore l w) := List.mem_of_mem_take hp
  have h2 : p ∈ categoryScore l w := (sortDesc_perm _).mem_iff.mp h1
  exact categoryScore_values_pos l w p h2

/-- With any history at all, the score dict is non-empty. -/
theorem categoryScore_ne_nil (l w : List HistItem) (h : ¬(l = [] ∧ w = [])) :
    categoryScore l w ≠ [] := by
  intro he
  have key : ∀ c, countCat w c + 2 * countCat l c = 0 := by
    intro c
    by_contra hc
    have hlk := categoryScore_lookup l w c
    rw [if_neg hc, he] at hlk
    exact Option.noConfusion hlk
  apply h
  constructor
  · cases l with
    | nil => rfl
    | cons r rs =>
      exfalso
      have hm : r.category ∈ (r :: rs).map HistItem.category := by simp
      have := (countCat_pos_iff (r :: rs) r.category).mpr hm
      have hk := key r.category
      omega
  · cases w with
    | nil => rfl
    | cons r rs =>
      exfalso
      have hm : r.category ∈ (r :: rs).map HistItem.category := by simp
      have := (countCat_pos_iff (r :: rs) r.category).mpr hm
      have hk := key r.category
      omega

/-- With any history at all, at least one top category exists. -/
theorem topCategories_ne_nil (l w : List HistItem) (h : ¬(l = [] ∧ w = [])) :
    topCategories l w ≠ [] := by
  rw [topCategories]
  intro he
  rcases List.take_eq_nil_iff.mp he with h3 | h4
  · exact absurd h3 (by omega)
  · have hl := (sortDesc_perm (categoryScore l w)).length_eq
    rw [h4] at hl
    exact categoryScore_ne_nil l w h (List.length_eq_zero.mp hl.symm)

/-! ### Allocation invariants -/

/-- With any history at all, the allocation's seat counts sum to exactly 8. -/
theorem allocations_sum (l w : List HistItem) (h : ¬(l = [] ∧ w = [])) :
    ((allocations l w).map Prod.snd).sum = 8 := by
  rw [allocations]
  exact allocGo_sum _ _ 8 (topCategories_ne_nil l w h)

/-- Every seat count of the allocation is nonnegative: the two rounded seat
counts of the earlier-ranked categories can never overshoot the budget of 8,
so the remainder absorbed by the last category is never negative. -/
theorem allocations_nonneg (l w : List HistItem) :
    ∀ p ∈ allocations l w, 0 ≤ p.2 := by
  intro p hp
  rw [allocations] at hp
  have hlen : (topCategories l w).length ≤ 3 := by
    rw [topCategories]
    exact List.length_take_le _ _
  have hpos := topCategories_values_pos l w
  rcases htc : topCategories l w with _ | ⟨a, _ | ⟨b, _ | ⟨c, _ | ⟨d, rest⟩⟩⟩⟩
  · rw [htc] at hp
    simp [allocGo] at hp
  · obtain ⟨a1, a2⟩ := a
    rw [htc] at hp
    simp [allocGo] at hp
    subst hp
    simp
  · obtain ⟨a1, a2⟩ := a
    obtain ⟨b1, b2⟩ := b
    rw [htc] at hp hpos
    have ha2 : 1 ≤ a2 := hpos (a1, a2) (by simp)
    have hb2 : 1 ≤ b2 := hpos (b1, b2) (by simp)
    have hT : totalScore l w = a2 + b2 := by
      rw [totalScore, htc]
      simp only [List.map_cons, List.map_nil, List.sum_cons, List.sum_nil]
      rw [if_neg (by omega)]
      omega
    rw [hT] at hp
    simp only [allocGo, List.mem_cons, List.not_mem_nil, or_false] at hp
    have hbound := rnd_bound (8 * a2) (a2 + b2) (by omega)
    have hR : rnd (8 * a2) (a2 + b2) ≤ 8 := by
      by_contra hc
      push_neg at hc
      have h9 : 9 ≤ rnd (8 * a2) (a2 + b2) := hc
      have hmul : (a2 + b2) * 9 ≤ (a2 + b2) * rnd (8 * a2) (a2 + b2) :=
        Nat.mul_le_mul_left _ h9
      have hchain : 2 * ((a2 + b2) * 9) ≤ 2 * (8 * a2) + (a2 + b2) :=
        le_trans (Nat.mul_le_mul_left 2 hmul) hbound
      omega
    rcases hp with hp | hp
    · subst hp
      show (0 : Int) ≤ (rnd (8 * a2) (a2 + b2) : Int)
      omega
    · subst hp
      show (0 : Int) ≤ 8 - (rnd (8 * a2) (a2 + b2) : Int)
      omega
  · obtain ⟨a1, a2⟩ := a
    obtain ⟨b1, b2⟩ := b
    obtain ⟨c1, c2⟩ := c
    rw [htc] at hp hpos
    have ha2 : 1 ≤ a2 := hpos (a1, a2) (by simp)
    have hb2 : 1 ≤ b2 := hpos (b1, b2) (by simp)
    have hc2 : 1 ≤ c2 := hpos (c1, c2) (by simp)
    have hT : totalScore l w = a2 + b2 + c2 := by
      rw [totalScore, htc]
      simp only [List.map_cons, List.map_nil, List.sum_cons, List.sum_nil]
      rw [if_neg (by omega)]
      omega
    rw [hT] at hp
    simp only [allocGo, List.mem_cons, List.not_mem_nil, or_false] at hp
    have hbound1 := rnd_bound (8 * a2) (a2 + b2 + c2) (by omega)
    have hbound2 := rnd_bound (8 * b2) (a2 + b2 + c2) (by omega)
    have hR : rnd (8 * a2) (a2 + b2 + c2) + rnd (8 * b2) (a2 + b2 + c2) ≤ 8 := by
      by_contra hcon
      push_neg at hcon
      have h9 : 9 ≤ rnd (8 * a2) (a2 + b2 + c2) + rnd (8 * b2) (a2 + b2 + c2) := hcon
      have hmul : (a2 + b2 + c2) * 9
          ≤ (a2 + b2 + c2) * (rnd (8 * a2) (a2 + b2 + c2) + rnd (8 * b2) (a2 + b2 + c2)) :=
        Nat.mul_le_mul_left _ h9
      have hsplit : 2 * ((a2 + b2 + c2)
            * (rnd (8 * a2) (a2 + b2 + c2) + rnd (8 * b2) (a2 + b2 + c2)))
          = 2 * ((a2 + b2 + c2) * rnd (8 * a2) (a2 + b2 + c2))
            + 2 * ((a2 + b2 + c2) * rnd (8 * b2) (a2 + b2 + c2)) := by ring
      have hchain : 2 * ((a2 + b2 + c2) * 9)
          ≤ (2 * (8 * a2) + (a2 + b2 + c2)) + (2 * (8 * b2) + (a2 + b2 + c2)) :=
        le_trans (Nat.mul_le_mul_left 2 hmul)
          (hsplit ▸ Nat.add_le_add hbound1 hbound2)
      omega
    rcases hp with hp | hp | hp
    · subst hp
      show (0 : Int) ≤ (rnd (8 * a2) (a2 + b2 + c2) : Int)
      omega
    · subst hp
      show (0 : Int) ≤ (rnd (8 * b2) (a2 + b2 + c2) : Int)
      omega
    · subst hp
      show (0 : Int) ≤ 8 - (rnd (8 * a2) (a2 + b2 + c2) : Int)
          - (rnd (8 * b2) (a2 + b2 + c2) : Int)
      omega
  · exfalso
    rw [htc] at hlen
    simp at hlen

/-- Sum of `toNat` over a nonnegative list is `toNat` of the sum. -/
theorem toNat_sum (xs : List Int) :
    (∀ x ∈ xs, 0 ≤ x) → (xs.map Int.toNat).sum = xs.sum.toNat := by
  induction xs with
  | nil => intro _; simp
  | cons x xs ih =>
    intro h
    simp only [List.map_cons, List.sum_cons]
    rw [ih (fun y hy => h y (List.mem_cons_of_mem x hy))]
    have hx : 0 ≤ x := h x (List.mem_cons_self x xs)
    have hs : 0 ≤ xs.sum := List.sum_nonneg (fun y hy => h y (List.mem_cons_of_mem x hy))
    omega

/-- With nonnegative seat counts, the fetch loop collects at most the sum of
the seat counts. -/
theorem fetchLoop_le_sum (seen : List String) (catalog : String → List Movie)
    (allocs : List (String × Int)) (seeds : List Nat)
    (hnn : ∀ p ∈ allocs, 0 ≤ p.2) :
    (fetchLoop seen catalog allocs seeds).1.length ≤ ((allocs.map Prod.snd).sum).toNat := by
  rw [fetchLoop_length]
  have h1 : ∀ p ∈ allocs,
      (if 0 < p.2 then
        min p.2.toNat (((catalog p.1).filter (fun m => !decide (m.videoId ∈ seen))).length)
      else 0) ≤ p.2.toNat := by
    intro p _
    split
    · exact min_le_left _ _
    · exact Nat.zero_le _
  have h2 := List.sum_le_sum h1
  have h3 : (allocs.map (fun p => p.2.toNat)).sum = ((allocs.map Prod.snd).sum).toNat := by
    rw [← toNat_sum _ (fun x hx => by
      obtain ⟨p, hp, he⟩ := List.mem_map.mp hx
      exact he ▸ hnn p hp)]
    rw [List.map_map]
    rfl
  rw [h3] at h2
  exact h2

/-- With any history at all, the pre-shuffle recommendation list has at most
8 items. -/
theorem fetched_le_8 (l w : List HistItem) (catalog : String → List Movie)
    (seeds : List Nat) (h : ¬(l = [] ∧ w = [])) :
    (fetchLoop (seenIds l w) catalog (allocations l w) seeds).1.length ≤ 8 := by
  have hb := fetchLoop_le_sum (seenIds l w) catalog (allocations l w) seeds
    (allocations_nonneg l w)
  rw [allocations_sum l w h] at hb
  simpa using hb

/-- The shape of the response on the non-empty-history branch. -/
theorem getRec_ok (l w : List HistItem) (catalog : String → List Movie)
    (seeds : List Nat) (h : ¬(l = [] ∧ w = [])) :
    getRecommendedMovies l w catalog seeds
      = Response.ok ((topCategories l w).map Prod.fst) (allocations l w)
          (shuf (fetchLoop (seenIds l w) catalog (allocations l w) seeds).2
            (fetchLoop (seenIds l w) catalog (allocations l w) seeds).1).1.length
          ((shuf (fetchLoop (seenIds l w) catalog (allocations l w) seeds).2
            (fetchLoop (seenIds l w) catalog (allocations l w) seeds).1).1.take 8) := by
  rw [getRecommendedMovies, if_neg h]

/-! ### Claim theorems -/

/-- C1: for every non-empty interaction history, the allocation map's values
sum exactly to the budget of 8, the last-ranked top category absorbing the
remainder. -/
theorem c1_allocation_sum (l w : List HistItem) (catalog : String → List Movie)
    (seeds : List Nat) (h : l ≠ [] ∨ w ≠ []) :
    (((getRecommendedMovies l w catalog seeds).allocation).map Prod.snd).sum = 8 := by
  have h' : ¬(l = [] ∧ w = []) := by tauto
  rw [getRec_ok l w catalog seeds h']
  exact allocations_sum l w h'

/-- C1 witness. -/
theorem c1_allocation_sum_witness :
    (((getRecommendedMovies [⟨"a", "A"⟩] [⟨"b", "B"⟩]
        (fun _ => [⟨"x"⟩]) []).allocation).map Prod.snd).sum = 8 :=
  c1_allocation_sum [⟨"a", "A"⟩] [⟨"b", "B"⟩] (fun _ => [⟨"x"⟩]) []
    (Or.inl (by decide))

/-- C2: no returned recommendation carries a `videoId` from the union of the
liked and watched histories (the seen set). -/
theorem c2_seen_exclusion (l w : List HistItem) (catalog : String → List Movie)
    (seeds : List Nat) (m : Movie)
    (hm : m ∈ (getRecommendedMovies l w catalog seeds).recommendations) :
    m.videoId ∉ l.map HistItem.videoId ∧ m.videoId ∉ w.map HistItem.videoId := by
  by_cases h : l = [] ∧ w = []
  · rw [getRecommendedMovies, if_pos h] at hm
    simp [Response.recommendations] at hm
  · rw [getRec_ok l w catalog seeds h] at hm
    simp only [Response.recommendations] at hm
    have h1 := List.mem_of_mem_take hm
    have h2 : m ∈ (fetchLoop (seenIds l w) catalog (allocations l w) seeds).1 :=
      (shuf_perm _ _).mem_iff.mp h1
    have h3 := fetchLoop_mem (seenIds l w) catalog (allocations l w) seeds m h2
    constructor
    · intro hmem
      apply h3
      rw [seenIds, List.map_append]
      exact List.mem_append_left _ hmem
    · intro hmem
      apply h3
      rw [seenIds, List.map_append]
      exact List.mem_append_right _ hmem

/-- C2 witness. -/
theorem c2_seen_exclusion_witness :
    (Movie.mk "x").videoId ∉ ([⟨"a", "A"⟩] : List HistItem).map HistItem.videoId
      ∧ (Movie.mk "x").videoId ∉ ([⟨"b", "B"⟩] : List HistItem).map HistItem.videoId :=
  c2_seen_exclusion [⟨"a", "A"⟩] [⟨"b", "B"⟩]
    (fun c => if c = "A" then [⟨"x"⟩, ⟨"a"⟩] else if c = "B" then [⟨"y"⟩] else [])
    [] ⟨"x"⟩ (by decide)

/-- C3: with no liked and no watched history the endpoint returns the empty
result with its explanatory message, not an error. -/
theorem c3_no_history (l w : List HistItem) (catalog : String → List Movie)
    (seeds : List Nat) (h1 : l = []) (h2 : w = []) :
    getRecommendedMovies l w catalog seeds
      = Response.noHistory "No history found to generate recommendations." := by
  subst h1
  subst h2
  rw [getRecommendedMovies, if_pos ⟨rfl, rfl⟩]

/-- C3 witness. -/
theorem c3_no_history_witness :
    getRecommendedMovies [] [] (fun _ => []) []
      = Response.noHistory "No history found to generate recommendations." :=
  c3_no_history [] [] (fun _ => []) [] rfl rfl

/-- C4 counterexample: with the single liked movie also being the only
catalog item, the history is non-empty yet the returned recommendations list
is empty — the claimed "length 0 iff no history" equivalence fails. -/
theorem c4_counterexample :
    ¬ (((getRecommendedMovies [⟨"a", "A"⟩] [] (fun _ => [⟨"a"⟩]) []).recommendations.length = 0)
        ↔ (([⟨"a", "A"⟩] : List HistItem) = [] ∧ ([] : List HistItem) = [])) := by
  decide

/-- C4 (amended): the recommendations list never exceeds 8 items, and it is
empty whenever both histories are empty; with a non-empty history it can
still come out empty when the allocated categories hold no unseen items. -/
theorem c4_amended_len (l w : List HistItem) (catalog : String → List Movie)
    (seeds : List Nat) :
    (getRecommendedMovies l w catalog seeds).recommendations.length ≤ 8
      ∧ (l = [] ∧ w = []
          → (getRecommendedMovies l w catalog seeds).recommendations.length = 0) := by
  constructor
  · by_cases h : l = [] ∧ w = []
    · rw [getRecommendedMovies, if_pos h]
      simp [Response.recommendations]
    · rw [getRec_ok l w catalog seeds h]
      simp only [Response.recommendations]
      rw [List.length_take]
      exact min_le_left _ _
  · rintro ⟨h1, h2⟩
    subst h1
    subst h2
    rw [getRecommendedMovies, if_pos ⟨rfl, rfl⟩]
    rfl

/-- C4 (amended) witness. -/
theorem c4_amended_len_witness :
    (getRecommendedMovies [] [] (fun _ => []) []).recommendations.length ≤ 8
      ∧ (getRecommendedMovies [] [] (fun _ => []) []).recommendations.length = 0 :=
  ⟨(c4_amended_len [] [] (fun _ => []) []).1,
   (c4_amended_len [] [] (fun _ => []) []).2 ⟨rfl, rfl⟩⟩

/-- C5: the category-score dict scores each category as
`1 × (watched records) + 2 × (liked records)` and holds exactly the
categories of the history — none with score 0 — with duplicate-free keys. -/
theorem c5_category_score (l w : List HistItem) (c : String) :
    lookupCS (categoryScore l w) c
        = (if countCat w c + 2 * countCat l c = 0 then none
           else some (countCat w c + 2 * countCat l c))
      ∧ (keysCS (categoryScore l w)).Nodup :=
  ⟨categoryScore_lookup l w c, categoryScore_nodup l w⟩

/-- C6: with a non-empty history, `based_on` is the names of the top
categories, has length `min 3 (distinct categories in the history)`, and the
top categories are ranked by non-increasing score. -/
theorem c6_based_on (l w : List HistItem) (catalog : String → List Movie)
    (seeds : List Nat) (h : l ≠ [] ∨ w ≠ []) :
    (getRecommendedMovies l w catalog seeds).basedOn
        = (topCategories l w).map Prod.fst
      ∧ (getRecommendedMovies l w catalog seeds).basedOn.length
          = min 3 (distinctCategories l w).length
      ∧ (topCategories l w).Pairwise (fun a b => b.2 ≤ a.2) := by
  have h' : ¬(l = [] ∧ w = []) := by tauto
  rw [getRec_ok l w catalog seeds h']
  refine ⟨rfl, ?_, topCategories_sorted l w⟩
  simp only [Response.basedOn]
  rw [List.length_map, topCategories_length]

/-- C6 witness. -/
theorem c6_based_on_witness :
    (getRecommendedMovies [⟨"a", "A"⟩] [⟨"b", "B"⟩] (fun _ => []) []).basedOn
        = (topCategories [⟨"a", "A"⟩] [⟨"b", "B"⟩]).map Prod.fst
      ∧ (getRecommendedMovies [⟨"a", "A"⟩] [⟨"b", "B"⟩] (fun _ => []) []).basedOn.length
          = min 3 (distinctCategories [⟨"a", "A"⟩] [⟨"b", "B"⟩]).length
      ∧ (topCategories [⟨"a", "A"⟩] [⟨"b", "B"⟩]).Pairwise (fun a b => b.2 ≤ a.2) :=
  c6_based_on [⟨"a", "A"⟩] [⟨"b", "B"⟩] (fun _ => []) [] (Or.inl (by decide))

/-- C7: each category with a positive seat count contributes exactly
`min (seat count) (number of its unseen catalog items)` recommendations —
a category short of unseen items yields just its unseen items and the
shortfall is not back-filled from any other category. -/
theorem c7_shortfall (seen : List String) (catalog : String → List Movie)
    (allocs : List (String × Int)) (seeds : List Nat) :
    (fetchLoop seen catalog allocs seeds).1.length
      = (allocs.map (fun p =>
          if 0 < p.2 then
            min p.2.toNat (((catalog p.1).filter (fun m => !decide (m.videoId ∈ seen))).length)
          else 0)).sum :=
  fetchLoop_length seen catalog allocs seeds

/-- C8: the endpoint is deterministic — identical histories, catalog
contents and rng stream give identical responses, ordering and allocation
included. -/
theorem c8_deterministic (l w : List HistItem)
    (catalog1 catalog2 : String → List Movie) (seeds1 seeds2 : List Nat)
    (hcat : catalog1 = catalog2) (hseeds : seeds1 = seeds2) :
    getRecommendedMovies l w catalog1 seeds1
      = getRecommendedMovies l w catalog2 seeds2 := by
  rw [hcat, hseeds]

/-- C8 witness. -/
theorem c8_deterministic_witness :
    getRecommendedMovies [⟨"a", "A"⟩] [] (fun _ => [⟨"x"⟩]) [1, 2, 3]
      = getRecommendedMovies [⟨"a", "A"⟩] [] (fun _ => [⟨"x"⟩]) [1, 2, 3] :=
  c8_deterministic [⟨"a", "A"⟩] [] (fun _ => [⟨"x"⟩]) (fun _ => [⟨"x"⟩])
    [1, 2, 3] [1, 2, 3] rfl rfl

/-- C9: with a non-empty history the last category's remainder is never
negative — every allocation value is ≥ 0 — and the collected recommendation
list has at most 8 items even before the final truncation. -/
theorem c9_nonneg_allocation (l w : List HistItem) (catalog : String → List Movie)
    (seeds : List Nat) (h : l ≠ [] ∨ w ≠ []) :
    (∀ p ∈ (getRecommendedMovies l w catalog seeds).allocation, 0 ≤ p.2)
      ∧ (fetchLoop (seenIds l w) catalog (allocations l w) seeds).1.length ≤ 8 := by
  have h' : ¬(l = [] ∧ w = []) := by tauto
  rw [getRec_ok l w catalog seeds h']
  exact ⟨allocations_nonneg l w, fetched_le_8 l w catalog seeds h'⟩

/-- C9 witness. -/
theorem c9_nonneg_allocation_witness :
    (∀ p ∈ (getRecommendedMovies [⟨"a", "A"⟩] [⟨"b", "B"⟩]
        (fun _ => [⟨"x"⟩]) []).allocation, 0 ≤ p.2)
      ∧ (fetchLoop (seenIds [⟨"a", "A"⟩] [⟨"b", "B"⟩]) (fun _ => [⟨"x"⟩])
          (allocations [⟨"a", "A"⟩] [⟨"b", "B"⟩]) []).1.length ≤ 8 :=
  c9_nonneg_allocation [⟨"a", "A"⟩] [⟨"b", "B"⟩] (fun _ => [⟨"x"⟩]) []
    (Or.inl (by decide))

/-- C10: whenever the endpoint answers with the full shape, its `count`
field equals the length of its `recommendations` list. -/
theorem c10_count_matches (l w : List HistItem) (catalog : String → List Movie)
    (seeds : List Nat) (b : List String) (a : List (String × Int)) (c : Nat)
    (r : List Movie)
    (h : getRecommendedMovies l w catalog seeds = Response.ok b a c r) :
    c = r.length := by
  by_cases hh : l = [] ∧ w = []
  · rw [getRecommendedMovies, if_pos hh] at h
    exact Response.noConfusion h
  · rw [getRec_ok l w catalog seeds hh] at h
    injection h with h1 h2 h3 h4
    subst h3
    subst h4
    rw [List.length_take]
    have hlen := shuf_length
      (fetchLoop (seenIds l w) catalog (allocations l w) seeds).2
      (fetchLoop (seenIds l w) catalog (allocations l w) seeds).1
    have hle := fetched_le_8 l w catalog seeds hh
    omega

/-- C10 witness. -/
theorem c10_count_matches_witness : (2 : Nat) = ([⟨"x"⟩, ⟨"y"⟩] : List Movie).length :=
  c10_count_matches [⟨"a", "A"⟩] [⟨"b", "B"⟩]
    (fun c => if c = "A" then [⟨"x"⟩, ⟨"a"⟩] else if c = "B" then [⟨"y"⟩] else [])
    [] ["A", "B"] [("A", 5), ("B", 3)] 2 [⟨"x"⟩, ⟨"y"⟩] (by decide)
